import Mathlib

/-!
# Verification of the pcs-scrapper extraction pipeline

A shallow embedding, in Lean 4, of the pure extraction logic of the
pcs-scrapper repository (`src/index.js`, whose file concatenates three
revisions of the scraper, and `src/unnamed/part_000`).  The scraper drives
a browser session; everything the browser returns is modelled here as
explicit data (cell texts, anchors, row lists), and every DOM access that
can throw in JavaScript (touching a property of `undefined`/`null`) is
modelled with `Except Unit`.  JavaScript numbers are modelled exactly
(`ℚ` plus symbolic `NaN` and infinities); float64 rounding and overflow
are not modelled, no theorem below depends on them.

The definitions mirror the latest revision of each function (the richest
schema: `award` in submissions, `ratingScale` / `expertiseScale` /
`reviewParts` in reviews), with comments pointing at the source lines.
-/

namespace PcsScrapper

/-! ## JavaScript strings: whitespace, trim, includes

`String.prototype.trim` and the implicit trim of `ToNumber` strip the
ECMAScript WhiteSpace and LineTerminator code points (TAB, VT, FF, SP,
NBSP, ZWNBSP, the Unicode Zs category, LF, CR, LS, PS). -/

def isJsWhitespace (c : Char) : Bool :=
  c = ' ' || c = '\t' || c = '\n' || c = '\r' || c = '\x0b' || c = '\x0c' ||
  c = '\u00A0' || c = '\uFEFF' || c = '\u1680' ||
  c = '\u2000' || c = '\u2001' || c = '\u2002' || c = '\u2003' ||
  c = '\u2004' || c = '\u2005' || c = '\u2006' || c = '\u2007' ||
  c = '\u2008' || c = '\u2009' || c = '\u200A' ||
  c = '\u2028' || c = '\u2029' || c = '\u202F' || c = '\u205F' || c = '\u3000'

/-- Both-ends trim on a character list. -/
def jsTrimList (l : List Char) : List Char :=
  ((l.dropWhile isJsWhitespace).reverse.dropWhile isJsWhitespace).reverse

/-- Model of `String.prototype.trim`. -/
def jsTrim (s : String) : String :=
  String.mk (jsTrimList s.data)

/-- Model of `String.prototype.includes(pat)` on character lists. -/
def containsSubList (pat : List Char) : List Char → Bool
  | [] => pat.isEmpty
  | c :: rest => pat.isPrefixOf (c :: rest) || containsSubList pat rest

/-! ## JavaScript numbers and `ToNumber` on strings

The unary plus (`+x`) the scraper applies to scraped cell text performs
the ECMAScript `ToNumber` conversion.  Values are modelled exactly: a
rational for finite numbers, plus symbolic NaN and signed infinity. -/

inductive JSNumber where
  | nan : JSNumber
  | inf (neg : Bool) : JSNumber
  | num (val : ℚ) : JSNumber
deriving DecidableEq

/-- JavaScript `<=` restricted to what the spec's invariants compare: false
whenever either side is NaN. -/
def JSNumber.leb : JSNumber → JSNumber → Bool
  | .nan, _ => false
  | _, .nan => false
  | .inf true, _ => true
  | .inf false, .inf false => true
  | .inf false, _ => false
  | .num _, .inf false => true
  | .num _, .inf true => false
  | .num x, .num y => decide (x ≤ y)

def JSNumber.negate : JSNumber → JSNumber
  | .nan => .nan
  | .inf b => .inf (!b)
  | .num q => .num (-q)

def decDigitVal (c : Char) : Nat := c.toNat - '0'.toNat

def isHexDigitChar (c : Char) : Bool :=
  c.isDigit || ('a' ≤ c && c ≤ 'f') || ('A' ≤ c && c ≤ 'F')

def hexDigitVal (c : Char) : Nat :=
  if c.isDigit then decDigitVal c
  else if 'a' ≤ c && c ≤ 'f' then c.toNat - 'a'.toNat + 10
  else c.toNat - 'A'.toNat + 10

def isOctDigitChar (c : Char) : Bool := '0' ≤ c && c ≤ '7'

def isBinDigitChar (c : Char) : Bool := c = '0' || c = '1'

/-- Horner evaluation of a digit list in a given base. -/
def digitsVal (base : Nat) (dval : Char → Nat) (l : List Char) : Nat :=
  l.foldl (fun acc c => acc * base + dval c) 0

/-- Greedy run of decimal digits (the regex-like `DecimalDigits` scan). -/
def takeDigits : List Char → List Char × List Char
  | [] => ([], [])
  | c :: rest =>
    if c.isDigit then
      let p := takeDigits rest
      (c :: p.1, p.2)
    else ([], c :: rest)

/-- `ExponentPart?` at the end of a decimal literal: empty, or
`e`/`E` with an optional sign and at least one digit, consuming the whole
remaining input. -/
def parseExponent : List Char → Option Int
  | [] => some 0
  | c :: rest =>
    if c = 'e' || c = 'E' then
      match rest with
      | '+' :: d => if !d.isEmpty && d.all Char.isDigit then some (digitsVal 10 decDigitVal d) else none
      | '-' :: d => if !d.isEmpty && d.all Char.isDigit then some (-(digitsVal 10 decDigitVal d : Int)) else none
      | d => if !d.isEmpty && d.all Char.isDigit then some (digitsVal 10 decDigitVal d) else none
    else none

/-- Exact value of `intDigits . fracDigits e exp`. -/
def decValue (intDs fracDs : List Char) (ex : Int) : ℚ :=
  ((digitsVal 10 decDigitVal intDs : ℚ) +
    (digitsVal 10 decDigitVal fracDs : ℚ) / (10 : ℚ) ^ fracDs.length) * (10 : ℚ) ^ ex

/-- `StrUnsignedDecimalLiteral`: `Infinity`, `Digits [. Digits?] Exp?` or
`. Digits Exp?`, consuming the whole input. -/
def parseUnsignedDec (l : List Char) : Option JSNumber :=
  if l = "Infinity".data then some (.inf false)
  else
    match (takeDigits l).2 with
    | '.' :: r2 =>
      if (takeDigits l).1 = [] && (takeDigits r2).1 = [] then none
      else (parseExponent (takeDigits r2).2).map fun ex =>
        .num (decValue (takeDigits l).1 (takeDigits r2).1 ex)
    | _ =>
      if (takeDigits l).1 = [] then none
      else (parseExponent (takeDigits l).2).map fun ex =>
        .num (decValue (takeDigits l).1 [] ex)

/-- `StrDecimalLiteral`: optional sign then an unsigned decimal literal. -/
def parseStrDecimal (l : List Char) : Option JSNumber :=
  match l with
  | '+' :: r => parseUnsignedDec r
  | '-' :: r => (parseUnsignedDec r).map JSNumber.negate
  | _ => parseUnsignedDec l

/-- A non-decimal integer literal body: at least one digit of the base,
consuming the whole input. -/
def parseRadix (pred : Char → Bool) (dval : Char → Nat) (base : Nat)
    (l : List Char) : Option JSNumber :=
  if !l.isEmpty && l.all pred then some (.num (digitsVal base dval l)) else none

/-- `StrNumericLiteral`: a decimal literal or an (unsigned) `0x`/`0o`/`0b`
integer literal, consuming the whole input. -/
def parseStrNumeric (l : List Char) : Option JSNumber :=
  match l with
  | '0' :: c :: r =>
    if c = 'x' || c = 'X' then parseRadix isHexDigitChar hexDigitVal 16 r
    else if c = 'o' || c = 'O' then parseRadix isOctDigitChar decDigitVal 8 r
    else if c = 'b' || c = 'B' then parseRadix isBinDigitChar decDigitVal 2 r
    else parseStrDecimal ('0' :: c :: r)
  | _ => parseStrDecimal l

/-- ECMAScript `ToNumber` on a string (the `+x` coercions of the scraper):
trim, empty becomes `0`, otherwise parse a numeric literal, `NaN` on
failure. -/
def toNumber (s : String) : JSNumber :=
  let t := jsTrimList s.data
  if t = [] then .num 0 else (parseStrNumeric t).getD .nan

/-! ## The parenthesized-group pattern

`/\(([^)]+)\)/.exec(text)` (coordinator in `scrapeSubmissions`, reviewer
type in `scrapeSubmissionReview`): the leftmost occurrence of an opening
parenthesis followed by one or more non-`)` characters and a closing
parenthesis; `execParen` returns the captured group. -/

/-- `([^)]+)\)`: the characters before the next `)`, requiring at least one
and requiring the `)` to exist. -/
def upToClose : List Char → Option (List Char)
  | [] => none
  | c :: rest => if c = ')' then some [] else (upToClose rest).map (c :: ·)

/-- The group starting right after an `(`: one-or-more non-`)` characters
then `)`. -/
def grabGroup : List Char → Option (List Char)
  | [] => none
  | c :: rest => if c = ')' then none else (upToClose rest).map (c :: ·)

/-- Leftmost match of `\(([^)]+)\)`, returning capture group 1. -/
def execParen : List Char → Option (List Char)
  | [] => none
  | c :: rest =>
    if c = '(' then
      match grabGroup rest with
      | some g => some g
      | none => execParen rest
    else execParen rest

/-! ## The scale pattern

`/scale is (\d(?:\.\d)?)\.\.(\d(?:\.\d)?)/.exec(text)` in
`scrapeSubmissionReview` (src/index.js lines 204–209).  `execScale`
returns the two captured numeral strings. -/

/-- `(\d(?:\.\d)?)\.\.`: the first bound (greedy optional decimal, with
backtracking) followed by the literal two dots; returns the capture and
the rest. -/
def parseScaleX : List Char → Option (List Char × List Char)
  | [] => none
  | a :: rest =>
    if a.isDigit then
      match rest with
      | '.' :: b :: '.' :: '.' :: rest2 =>
        if b.isDigit then some ([a, '.', b], rest2) else none
      | '.' :: '.' :: rest2 => some ([a], rest2)
      | _ => none
    else none

/-- `(\d(?:\.\d)?)` at the end of the pattern: greedy optional decimal,
trailing input unconstrained. -/
def parseScaleY : List Char → Option (List Char)
  | a :: '.' :: b :: _ =>
    if a.isDigit then some (if b.isDigit then [a, '.', b] else [a]) else none
  | a :: _ => if a.isDigit then some [a] else none
  | [] => none

/-- The whole pattern anchored at the head of the input. -/
def tryScaleAt (s : List Char) : Option (List Char × List Char) :=
  if "scale is ".data.isPrefixOf s then
    match parseScaleX (s.drop 9) with
    | some (x, r) => (parseScaleY r).map fun y => (x, y)
    | none => none
  else none

/-- Leftmost match of the scale pattern, returning the two captures. -/
def execScale : List Char → Option (List Char × List Char)
  | [] => none
  | c :: rest =>
    match tryScaleAt (c :: rest) with
    | some r => some r
    | none => execScale rest

/-! ## DOM models

The scraper reads the DOM only through a handful of shapes: cell/anchor
text, an optional first `<a>` / `<b>` inside a cell, row lists.  A DOM
access on a missing element (`undefined`/`null` property access) throws a
`TypeError` in JavaScript; such accesses are modelled with `Except Unit`
(the error payload is irrelevant to every claim). -/

/-- An `<a>` element: `title`, `href` and visible text. -/
structure Anchor where
  title : String
  href : String
  innerText : String
deriving DecidableEq

/-- A `<td>` of a listing row: its text and its first `<a>`, when any. -/
structure ListingCell where
  innerText : String
  anchor : Option Anchor
deriving DecidableEq

/-- A listing-table row, as the list of its `<td>`s. -/
abbrev ListingRow := List ListingCell

/-- The second `<td>` of an info-table row of a review page: its text and
the text of its first `<b>`, when any. -/
structure InfoTd where
  innerText : String
  bold : Option String
deriving DecidableEq

/-- A review page, as the code reads it: for each `tr` of the second
table, its `td:nth-of-type(2)` (`none` when the row has no second cell),
and the text of each `tr` of the third table. -/
structure ReviewPage where
  infoTds : List (Option InfoTd)
  reviewTrs : List String
deriving DecidableEq

/-- `{ title, content }` of one review section. -/
structure ReviewPart where
  title : Option String
  content : Option String
deriving DecidableEq

/-- One extracted review (src/index.js lines 225–237 plus the `isUser`
merge of line 240). -/
structure Review where
  isUser : Bool
  number : JSNumber
  rating : JSNumber
  ratingScale : Option (JSNumber × JSNumber)
  reviewerExpertise : JSNumber
  expertiseScale : Option (JSNumber × JSNumber)
  reviewerType : String
  reviewParts : List ReviewPart
deriving DecidableEq

/-! ## scrapeSubmissionReview (src/index.js lines 191–241)

The in-page function destructures rows 0, 2 and 3 of the second table's
second cells, applies the two regexes, pairs the third table's rows into
`reviewParts`, and coerces the bolded texts with unary plus.  Every DOM
access on a missing element throws; all throws collapse to the single
`.error ()`, so hoisting them ahead of the pure computations (as the
`match` below does) preserves both the success value and the
success/failure outcome. -/

/-- Lines 212–223: alternate (title, content) pairs over the third table's
rows, title `null` when the row text is empty (falsy), trim both, drop
pairs whose title is the empty string. -/
def scrapeReviewParts (reviewTrs : List String) : List ReviewPart :=
  ((((reviewTrs.enum.filter fun p => p.1 % 2 == 0).map Prod.snd).enum.map
    fun p =>
      { title := if p.2 = "" then none else some (jsTrim p.2),
        content := (reviewTrs.get? (p.1 * 2 + 1)).map jsTrim : ReviewPart }).filter
    fun part => part.title ≠ some "")

/-- Lines 191–241 (review-part–free accesses identical at lines 440–460 of
the later revision): extract one review from its page.  The three rows
destructured from the info table are children 0, 2 and 3; a missing row, a
missing second cell or a missing `<b>` throws. -/
def scrapeSubmissionReview (isUser : Bool) (page : ReviewPage) : Except Unit Review :=
  match page.infoTds.get? 0, page.infoTds.get? 2, page.infoTds.get? 3 with
  | some (some reviewerTd), some (some ratingTd), some (some expertiseTd) =>
    match reviewerTd.bold, ratingTd.bold, expertiseTd.bold with
    | some numberText, some ratingText, some expertiseText =>
      .ok {
        isUser := isUser
        number := toNumber numberText
        rating := toNumber ratingText
        ratingScale := (execScale ratingTd.innerText.data).map fun p =>
          (toNumber (String.mk p.1), toNumber (String.mk p.2))
        reviewerExpertise := toNumber expertiseText
        expertiseScale := (execScale expertiseTd.innerText.data).map fun p =>
          (toNumber (String.mk p.1), toNumber (String.mk p.2))
        reviewerType := match execParen reviewerTd.innerText.data with
          | some g => String.mk g
          | none => "external"
        reviewParts := scrapeReviewParts page.reviewTrs }
    | _, _, _ => .error ()
  | _, _, _ => .error ()

/-! ## scrapeSubmissionReviews (src/index.js lines 250–271) -/

/-- A review link scraped from the submission page. -/
structure ReviewLink where
  address : String
  isUser : Bool
deriving DecidableEq

/-- Lines 256–263: each anchor of the reviews table gives its `href` and
whether its text contains the literal `"(you)"`. -/
def scrapeReviewLinks (anchors : List Anchor) : List ReviewLink :=
  anchors.map fun a => { address := a.href, isUser := containsSubList "(you)".data a.innerText.data }

/-- Lines 250–271: scrape the review of every link, in input order
(`Promise.all` over the mapped fetches; `reviewPages` maps an address to
the page the browser would return for it). -/
def scrapeSubmissionReviews (reviewPages : String → ReviewPage)
    (submissionPageAnchors : List Anchor) : Except Unit (List Review) :=
  (scrapeReviewLinks submissionPageAnchors).mapM fun l =>
    scrapeSubmissionReview l.isUser (reviewPages l.address)

/-! ## scrapeSubmissions: the listing rows (src/index.js lines 500–526)

The selector `h1 + blockquote table tr:nth-child(n + 4)` keeps the rows
whose 1-based child position is at least 4. -/

/-- `:nth-child(n + k)` over a parent's children. -/
def nthChildFrom (k : Nat) (children : List α) : List α :=
  (children.enum.filter fun p => k ≤ p.1 + 1).map Prod.snd

/-- One extracted submission-listing entry (lines 515–523; the earlier
revision at lines 296–303 lacks `award`). -/
structure SubmissionInfo where
  id : String
  title : String
  submissionAddress : String
  reviewsAddress : String
  reviewStatus : String
  award : String
  coordinator : Option String
deriving DecidableEq

/-- Lines 512–523: positional cells of one listing row; a missing cell or
a missing anchor in cell 8 or 12 throws. -/
def extractSubmissionRow (tds : ListingRow) : Except Unit SubmissionInfo :=
  match tds.get? 0, tds.get? 4, tds.get? 6, tds.get? 8, tds.get? 12, tds.get? 14 with
  | some td0, some td4, some td6, some td8, some td12, some td14 =>
    match td8.anchor, td12.anchor with
    | some a8, some a12 =>
      .ok {
        id := td6.innerText
        title := a8.title
        submissionAddress := a8.href
        reviewsAddress := a12.href
        reviewStatus := td0.innerText
        award := td4.innerText
        coordinator := (execParen td14.innerText.data).map String.mk }
    | _, _ => .error ()
  | _, _, _, _, _, _ => .error ()

/-- Lines 506–525 (and 287–305, 55–68 of part_000): the submission entries
of a category listing page, one per selected row. -/
def scrapeSubmissionRows (rows : List ListingRow) : Except Unit (List SubmissionInfo) :=
  (nthChildFrom 4 rows).mapM extractSubmissionRow

/-! ## The Promise.all aggregation primitive (src/index.js lines 266–270,
308–314, 348–354)

`Promise.all(inputs.map(f))` starts one operation per input; completions
arrive in an arbitrary order and each fills its own slot of the result
array.  A completion order is a list of slot indices; a full run is any
permutation of them. -/

/-- One completion: slot `j` receives the value of the operation launched
for `inputs[j]`. -/
def promiseAllStep (f : α → β) (inputs : List α) (acc : List (Option β)) (j : Nat) :
    List (Option β) :=
  acc.set j ((inputs.get? j).map f)

/-- Run the completions of `order` over an all-empty result array. -/
def promiseAll (f : α → β) (inputs : List α) (order : List Nat) : List (Option β) :=
  order.foldl (promiseAllStep f inputs) (List.replicate inputs.length none)

/-! ## Top-level assembly and exit (src/index.js lines 322–380, part_000
lines 70–129) -/

/-- A category paired with its scraped submissions
(`Object.assign({}, cat, { submissions })`). -/
structure CategoryOut where
  name : String
  address : String
  submissions : List SubmissionInfo
deriving DecidableEq

/-- A value of the output envelope. -/
inductive EnvelopeValue where
  | vStr (s : String)
  | vCats (cs : List CategoryOut)
deriving DecidableEq

/-- The object written to the output file (part_000 lines 110–120 and
src/index.js lines 574–584; the middle revision names the last key
`reviewCategories` instead of `categories`), as its ordered fields. -/
def resultDocument (pkgName pkgVersion username date : String)
    (cats : List CategoryOut) : List (String × EnvelopeValue) :=
  [("scrapper", .vStr pkgName),
   ("version", .vStr pkgVersion),
   ("username", .vStr username),
   ("date", .vStr date),
   ("categories", .vCats cats)]

/-- What the process reports when it terminates. -/
structure ProcessTermination where
  exitCode : Nat
  loggedError : Option String
deriving DecidableEq

/-- `main().catch(e => { log.error(e); process.exit(0); })`
(src/index.js lines 377–380, 590–593, part_000 lines 126–129). -/
def topLevelCatch (e : String) : ProcessTermination :=
  { exitCode := 0, loggedError := some e }

/-- Termination of the whole run: normal exit on success, the catch
handler on a propagated error. -/
def runTermination (outcome : Except String Unit) : ProcessTermination :=
  match outcome with
  | .ok _ => { exitCode := 0, loggedError := none }
  | .error e => topLevelCatch e

/-! ## Characterizing the parenthesized-group pattern

The spec reads the regex `\(([^)]+)\)` as: the token inside the first
parenthesized group of the text.  The predicates below state that reading
directly on the raw character list, independently of `execParen`. -/

/-- `s` splits as `pre ( g ) post` with `g` a nonempty run free of `)`. -/
def ParenDecomp (s pre g post : List Char) : Prop :=
  s = pre ++ '(' :: (g ++ ')' :: post) ∧ g ≠ [] ∧ ')' ∉ g

/-- `s` contains some parenthesized group. -/
def HasParenGroup (s : List Char) : Prop :=
  ∃ pre g post, ParenDecomp s pre g post

/-- `g` is the group of the leftmost decomposition of `s`. -/
def IsFirstParenGroup (s g : List Char) : Prop :=
  ∃ pre post, ParenDecomp s pre g post ∧
    ∀ pre2 g2 post2, ParenDecomp s pre2 g2 post2 → pre.length ≤ pre2.length

theorem upToClose_some {t g : List Char} (h : upToClose t = some g) :
    ∃ post, t = g ++ ')' :: post ∧ ')' ∉ g := by
  induction t generalizing g with
  | nil => simp [upToClose] at h
  | cons c rest ih =>
    by_cases hc : c = ')'
    · refine ⟨rest, ?_, ?_⟩ <;> simp_all [upToClose]
    · rw [upToClose, if_neg hc] at h
      rcases hu : upToClose rest with _ | g2
      · rw [hu] at h; simp at h
      · rw [hu] at h
        obtain rfl : c :: g2 = g := by simpa using h
        obtain ⟨post, rfl, hnot⟩ := ih hu
        refine ⟨post, by simp, ?_⟩
        simp only [List.mem_cons, not_or]
        exact ⟨fun hcc => hc hcc.symm, hnot⟩

theorem upToClose_complete {g : List Char} (post : List Char) (hg : ')' ∉ g) :
    upToClose (g ++ ')' :: post) = some g := by
  induction g with
  | nil => simp [upToClose]
  | cons c g2 ih =>
    simp only [List.mem_cons, not_or] at hg
    have hc : c ≠ ')' := fun hcc => hg.1 hcc.symm
    simp [upToClose, hc, ih hg.2]

theorem grabGroup_some {t g : List Char} (h : grabGroup t = some g) :
    ∃ post, t = g ++ ')' :: post ∧ g ≠ [] ∧ ')' ∉ g := by
  match t with
  | [] => simp [grabGroup] at h
  | c :: rest =>
    by_cases hc : c = ')'
    · simp [grabGroup, hc] at h
    · rw [grabGroup, if_neg hc] at h
      rcases hu : upToClose rest with _ | g2
      · rw [hu] at h; simp at h
      · rw [hu] at h
        obtain rfl : c :: g2 = g := by simpa using h
        obtain ⟨post, rfl, hnot⟩ := upToClose_some hu
        refine ⟨post, by simp, by simp, ?_⟩
        simp only [List.mem_cons, not_or]
        exact ⟨fun hcc => hc hcc.symm, hnot⟩

theorem grabGroup_complete {g : List Char} (post : List Char) (hne : g ≠ [])
    (hg : ')' ∉ g) : grabGroup (g ++ ')' :: post) = some g := by
  match g, hne with
  | c :: g2, _ =>
    simp only [List.mem_cons, not_or] at hg
    have hc : c ≠ ')' := fun hcc => hg.1 hcc.symm
    simp [grabGroup, hc, upToClose_complete post hg.2]

theorem execParen_none {s : List Char} (h : execParen s = none) :
    ¬ HasParenGroup s := by
  rintro ⟨pre, g, post, hdec, hne, hnot⟩
  induction s generalizing pre with
  | nil => exact absurd hdec (by simp)
  | cons c rest ih =>
    rw [execParen] at h
    match pre, hdec with
    | [], hdec =>
      simp only [List.nil_append, List.cons.injEq] at hdec
      obtain ⟨rfl, hrest⟩ := hdec
      rw [if_pos rfl, hrest, grabGroup_complete post hne hnot] at h
      simp at h
    | p :: pre2, hdec =>
      simp only [List.cons_append, List.cons.injEq] at hdec
      obtain ⟨rfl, hrest⟩ := hdec
      by_cases hc : c = '('
      · rw [if_pos hc] at h
        rcases hgb : grabGroup rest with _ | g2
        · rw [hgb] at h
          exact ih h pre2 hrest
        · rw [hgb] at h; simp at h
      · rw [if_neg hc] at h
        exact ih h pre2 hrest

theorem execParen_some {s g : List Char} (h : execParen s = some g) :
    IsFirstParenGroup s g := by
  induction s generalizing g with
  | nil => simp [execParen] at h
  | cons c rest ih =>
    rw [execParen] at h
    by_cases hc : c = '('
    · rw [if_pos hc] at h
      rcases hgb : grabGroup rest with _ | g2
      · rw [hgb] at h
        obtain ⟨pre, post, hdec, hmin⟩ := ih h
        refine ⟨c :: pre, post, ⟨by simp [hdec.1], hdec.2.1, hdec.2.2⟩, ?_⟩
        rintro pre2 g3 post3 ⟨hd2, hne2, hnot2⟩
        match pre2, hd2 with
        | [], hd2 =>
          simp only [List.nil_append, List.cons.injEq] at hd2
          rw [hd2.2, grabGroup_complete post3 hne2 hnot2] at hgb
          exact absurd hgb (by simp)
        | p :: pre3, hd2 =>
          simp only [List.cons_append, List.cons.injEq] at hd2
          have := hmin pre3 g3 post3 ⟨hd2.2, hne2, hnot2⟩
          simpa using Nat.succ_le_succ this
      · rw [hgb] at h
        obtain rfl : g2 = g := by simpa using h
        obtain ⟨post, hrest, hne, hnot⟩ := grabGroup_some hgb
        exact ⟨[], post, ⟨by simp [hc, hrest], hne, hnot⟩,
          fun pre2 g3 post3 _ => Nat.zero_le _⟩
    · rw [if_neg hc] at h
      obtain ⟨pre, post, hdec, hmin⟩ := ih h
      refine ⟨c :: pre, post, ⟨by simp [hdec.1], hdec.2.1, hdec.2.2⟩, ?_⟩
      rintro pre2 g3 post3 ⟨hd2, hne2, hnot2⟩
      match pre2, hd2 with
      | [], hd2 =>
        simp only [List.nil_append, List.cons.injEq] at hd2
        exact absurd hd2.1 hc
      | p :: pre3, hd2 =>
        simp only [List.cons_append, List.cons.injEq] at hd2
        have := hmin pre3 g3 post3 ⟨hd2.2, hne2, hnot2⟩
        simpa using Nat.succ_le_succ this

theorem execParen_none_iff {s : List Char} :
    execParen s = none ↔ ¬ HasParenGroup s := by
  constructor
  · exact execParen_none
  · intro hn
    rcases he : execParen s with _ | g
    · rfl
    · obtain ⟨pre, post, hdec, _⟩ := execParen_some he
      exact absurd ⟨pre, g, post, hdec⟩ hn

/-! ## Success-shape lemmas for the extraction functions -/

theorem extractSubmissionRow_ok {tds : ListingRow} {sub : SubmissionInfo}
    (h : extractSubmissionRow tds = .ok sub) :
    ∃ td0 td4 td6 td8 td12 td14 a8 a12,
      tds.get? 0 = some td0 ∧ tds.get? 4 = some td4 ∧ tds.get? 6 = some td6 ∧
      tds.get? 8 = some td8 ∧ tds.get? 12 = some td12 ∧ tds.get? 14 = some td14 ∧
      td8.anchor = some a8 ∧ td12.anchor = some a12 ∧
      sub = { id := td6.innerText, title := a8.title, submissionAddress := a8.href,
              reviewsAddress := a12.href, reviewStatus := td0.innerText,
              award := td4.innerText,
              coordinator := (execParen td14.innerText.data).map String.mk } := by
  unfold extractSubmissionRow at h
  split at h
  · rename_i td0 td4 td6 td8 td12 td14 h0 h4 h6 h8 h12 h14
    split at h
    · rename_i a8 a12 h8a h12a
      injection h with h
      exact ⟨td0, td4, td6, td8, td12, td14, a8, a12,
        h0, h4, h6, h8, h12, h14, h8a, h12a, h.symm⟩
    · exact absurd h (by simp)
  · exact absurd h (by simp)

theorem scrapeSubmissionReview_ok {isUser : Bool} {page : ReviewPage} {r : Review}
    (h : scrapeSubmissionReview isUser page = .ok r) :
    ∃ reviewerTd ratingTd expertiseTd numberText ratingText expertiseText,
      page.infoTds.get? 0 = some (some reviewerTd) ∧
      page.infoTds.get? 2 = some (some ratingTd) ∧
      page.infoTds.get? 3 = some (some expertiseTd) ∧
      reviewerTd.bold = some numberText ∧ ratingTd.bold = some ratingText ∧
      expertiseTd.bold = some expertiseText ∧
      r = { isUser := isUser
            number := toNumber numberText
            rating := toNumber ratingText
            ratingScale := (execScale ratingTd.innerText.data).map fun p =>
              (toNumber (String.mk p.1), toNumber (String.mk p.2))
            reviewerExpertise := toNumber expertiseText
            expertiseScale := (execScale expertiseTd.innerText.data).map fun p =>
              (toNumber (String.mk p.1), toNumber (String.mk p.2))
            reviewerType := match execParen reviewerTd.innerText.data with
              | some g => String.mk g
              | none => "external"
            reviewParts := scrapeReviewParts page.reviewTrs } := by
  unfold scrapeSubmissionReview at h
  split at h
  · rename_i reviewerTd ratingTd expertiseTd h0 h2 h3
    split at h
    · rename_i numberText ratingText expertiseText hb0 hb2 hb3
      injection h with h
      exact ⟨reviewerTd, ratingTd, expertiseTd, numberText, ratingText, expertiseText,
        h0, h2, h3, hb0, hb2, hb3, h.symm⟩
    · exact absurd h (by simp)
  · exact absurd h (by simp)

/-! ## Concrete fixtures used by witnesses and counterexamples -/

deriving instance DecidableEq for Except

/-- A `<td>` with no anchor. -/
def plainCell (t : String) : ListingCell := { innerText := t, anchor := none }

/-- A `<td>` whose first anchor carries a title and an href. -/
def anchorCell (t ti href : String) : ListingCell :=
  { innerText := t, anchor := some { title := ti, href := href, innerText := "" } }

/-- A full 15-cell listing row (the spec scenario: coordinator cell
`"Jane Doe (coordinator)"`). -/
def c5Row : ListingRow :=
  [plainCell "Done", plainCell "", plainCell "", plainCell "", plainCell "Best Paper",
   plainCell "", plainCell "123", plainCell "", anchorCell "" "Paper X" "/sub/123",
   plainCell "", plainCell "", plainCell "", anchorCell "" "" "/rev/123",
   plainCell "", plainCell "Jane Doe (coordinator)"]

/-- The submission record `c5Row` extracts to. -/
def c5Sub : SubmissionInfo :=
  { id := "123", title := "Paper X", submissionAddress := "/sub/123",
    reviewsAddress := "/rev/123", reviewStatus := "Done", award := "Best Paper",
    coordinator := some "coordinator" }

/-- A review page whose reviewer-info text has no parenthesized token. -/
def c9Page : ReviewPage :=
  { infoTds := [some { innerText := "Reviewer 2", bold := some "2" },
                none,
                some { innerText := "rating", bold := some "3" },
                some { innerText := "expertise", bold := some "4" }],
    reviewTrs := [] }

/-! ## Claim theorems -/

/-- C4: whenever an error propagates to the top level (and on success as
well), the process terminates with exit status 0; a propagated error is
reported only through the log. -/
theorem c4_exit_status (outcome : Except String Unit) :
    (runTermination outcome).exitCode = 0 ∧
    ∀ e, outcome = .error e → (runTermination outcome).loggedError = some e := by
  cases outcome <;> simp [runTermination, topLevelCatch]

/-- C3 counterexample: the output envelope has no field named
`scrapperName` (at a concrete envelope, the key is absent). -/
theorem c3_counterexample :
    List.lookup "scrapperName"
      (resultDocument "pcs-scrapper" "1.0.0" "alice" "2018-06-01" []) = none ∧
    ((resultDocument "pcs-scrapper" "1.0.0" "alice" "2018-06-01" []).map
      Prod.fst).contains "scrapperName" = false := by
  decide

/-- C3 amended: for every successful run, the envelope's fields are
`scrapper` (holding the tool name), `version`, `username`, `date` and the
categories array, in that order. -/
theorem c3_envelope (pkgName pkgVersion username date : String)
    (cats : List CategoryOut) :
    (resultDocument pkgName pkgVersion username date cats).map Prod.fst =
      ["scrapper", "version", "username", "date", "categories"] ∧
    List.lookup "scrapper" (resultDocument pkgName pkgVersion username date cats) =
      some (.vStr pkgName) ∧
    List.lookup "categories" (resultDocument pkgName pkgVersion username date cats) =
      some (.vCats cats) := by
  exact ⟨rfl, rfl, rfl⟩

/-- C5: for every successfully extracted listing row, `coordinator` is the
token inside the first parenthesized group of cell 14's text, and is
absent (not the empty string) when the text has no parenthesized group. -/
theorem c5_coordinator (tds : ListingRow) (sub : SubmissionInfo) (td14 : ListingCell)
    (h : extractSubmissionRow tds = .ok sub) (h14 : tds.get? 14 = some td14) :
    (HasParenGroup td14.innerText.data →
      ∃ g, IsFirstParenGroup td14.innerText.data g ∧
        sub.coordinator = some (String.mk g)) ∧
    (¬ HasParenGroup td14.innerText.data → sub.coordinator = none) := by
  obtain ⟨td0, td4, td6, td8, td12, td14x, a8, a12, _, _, _, _, _, h14x, _, _, rfl⟩ :=
    extractSubmissionRow_ok h
  have he14 : td14 = td14x := by rw [h14] at h14x; exact Option.some.inj h14x
  subst he14
  constructor
  · intro hg
    rcases he : execParen td14.innerText.data with _ | g
    · exact absurd hg (execParen_none_iff.mp he)
    · exact ⟨g, execParen_some he, by simp [he]⟩
  · intro hn
    have hnone : execParen td14.innerText.data = none := execParen_none_iff.mpr hn
    simp [hnone]

/-- C5 witness: the spec scenario `"Jane Doe (coordinator)"` yields
`coordinator = "coordinator"`. -/
theorem c5_coordinator_witness :
    extractSubmissionRow c5Row = .ok c5Sub ∧
    c5Sub.coordinator = some "coordinator" ∧
    (HasParenGroup "Jane Doe (coordinator)".data →
      ∃ g, IsFirstParenGroup "Jane Doe (coordinator)".data g ∧
        c5Sub.coordinator = some (String.mk g)) := by
  have hok : extractSubmissionRow c5Row = .ok c5Sub := by decide
  have h := c5_coordinator c5Row c5Sub (plainCell "Jane Doe (coordinator)") hok rfl
  exact ⟨hok, by decide, h.1⟩

/-- C9: for every successfully extracted review, `reviewerType` is
`"external"` exactly when the reviewer-info text has no parenthesized
token, and is the first parenthesized token otherwise. -/
theorem c9_reviewer_type (isUser : Bool) (page : ReviewPage) (r : Review) (rtd : InfoTd)
    (h : scrapeSubmissionReview isUser page = .ok r)
    (h0 : page.infoTds.get? 0 = some (some rtd)) :
    (¬ HasParenGroup rtd.innerText.data → r.reviewerType = "external") ∧
    (HasParenGroup rtd.innerText.data →
      ∃ g, IsFirstParenGroup rtd.innerText.data g ∧ r.reviewerType = String.mk g) := by
  obtain ⟨rtd0, rtd2, rtd3, b0, b2, b3, g0, g2x, g3x, hb0, hb2, hb3, rfl⟩ :=
    scrapeSubmissionReview_ok h
  have he0 : rtd = rtd0 := by
    rw [h0] at g0
    exact Option.some.inj (Option.some.inj g0)
  subst he0
  constructor
  · intro hn
    have hnone : execParen rtd.innerText.data = none := execParen_none_iff.mpr hn
    simp [hnone]
  · intro hg
    rcases he : execParen rtd.innerText.data with _ | g
    · exact absurd hg (execParen_none_iff.mp he)
    · exact ⟨g, execParen_some he, by simp [he]⟩

/-- Projection used by closed statements: the `reviewerType` of a
successful extraction. -/
def reviewerTypeOf : Except Unit Review → Option String
  | .ok r => some r.reviewerType
  | .error _ => none

/-- C9 witness: a reviewer-info cell with no parenthesized token yields
`reviewerType = "external"`. -/
theorem c9_reviewer_type_witness :
    reviewerTypeOf (scrapeSubmissionReview false c9Page) = some "external" := by
  have hok : scrapeSubmissionReview false c9Page = .ok {
      isUser := false, number := toNumber "2", rating := toNumber "3",
      ratingScale := (execScale "rating".data).map fun p =>
        (toNumber (String.mk p.1), toNumber (String.mk p.2)),
      reviewerExpertise := toNumber "4",
      expertiseScale := (execScale "expertise".data).map fun p =>
        (toNumber (String.mk p.1), toNumber (String.mk p.2)),
      reviewerType := match execParen "Reviewer 2".data with
        | some g => String.mk g
        | none => "external",
      reviewParts := scrapeReviewParts [] } := rfl
  have h := (c9_reviewer_type false c9Page _ { innerText := "Reviewer 2", bold := some "2" }
    hok rfl).1 (execParen_none_iff.mp (by decide))
  rw [hok]
  exact congrArg some h

/-! ## C1: one submission per data row, skipping the first three rows -/

theorem enumFrom_filter_ge {α : Type _} (k : Nat) :
    ∀ (l : List α) (j : Nat),
      ((List.enumFrom j l).filter fun p => decide (k ≤ p.1 + 1)).map Prod.snd =
        l.drop (k - 1 - j) := by
  intro l
  induction l with
  | nil => intro j; simp
  | cons a t ih =>
    intro j
    rw [List.enumFrom_cons]
    by_cases hk : k ≤ j + 1
    · have h0 : k - 1 - j = 0 := by omega
      have h1 : k - 1 - (j + 1) = 0 := by omega
      rw [List.filter_cons_of_pos (by simpa using hk)]
      simp only [List.map_cons, ih (j + 1), h0, h1, List.drop_zero]
    · have h1 : k - 1 - j = (k - 1 - (j + 1)) + 1 := by omega
      rw [List.filter_cons_of_neg (by simpa using hk)]
      rw [ih (j + 1), h1, List.drop_succ_cons]

theorem nthChildFrom_eq_drop {α : Type _} (k : Nat) (l : List α) :
    nthChildFrom k l = l.drop (k - 1) := by
  have h := enumFrom_filter_ge k l 0
  simpa [nthChildFrom, List.enum] using h

/-- An `Except`-valued `mapM` that succeeds has one output per input, each
the successful image of its input. -/
theorem except_mapM_ok {α γ : Type _} {f : α → Except Unit γ} :
    ∀ (l : List α) (res : List γ), l.mapM f = .ok res →
      res.length = l.length ∧
      ∀ i a, l.get? i = some a → ∃ b, res.get? i = some b ∧ f a = .ok b := by
  intro l
  induction l with
  | nil =>
    intro res h
    cases h
    exact ⟨rfl, fun i a ha => by simp at ha⟩
  | cons a t ih =>
    intro res h
    rw [List.mapM_cons] at h
    rcases hfa : f a with e | b <;> rw [hfa] at h
    · exact Except.noConfusion h
    · rcases hmt : t.mapM f with e | bs <;> rw [hmt] at h
      · exact Except.noConfusion h
      · cases h
        obtain ⟨hlen, helem⟩ := ih bs hmt
        refine ⟨by simp [hlen], ?_⟩
        rintro (_ | i) x hx
        · obtain rfl : a = x := by simpa using hx
          exact ⟨b, rfl, hfa⟩
        · exact helem i x (by simpa using hx)

/-- C1: for every category listing page, the extracted submission list has
exactly one entry per table row after skipping exactly the first three
rows: the selector keeps precisely `rows.drop 3`, the output length is
`rows.length - 3`, and entry `i` is extracted from row `i + 3`. -/
theorem c1_submissions_per_row (rows : List ListingRow) (subs : List SubmissionInfo)
    (h : scrapeSubmissionRows rows = .ok subs) :
    nthChildFrom 4 rows = rows.drop 3 ∧
    subs.length = rows.length - 3 ∧
    ∀ i row sub, rows.get? (i + 3) = some row → subs.get? i = some sub →
      extractSubmissionRow row = .ok sub := by
  have hsel : nthChildFrom 4 rows = rows.drop 3 := nthChildFrom_eq_drop 4 rows
  unfold scrapeSubmissionRows at h
  rw [hsel] at h
  obtain ⟨hlen, helem⟩ := except_mapM_ok (rows.drop 3) subs h
  refine ⟨hsel, by simpa using hlen, ?_⟩
  intro i row sub hrow hsub
  have hdrop : (rows.drop 3).get? i = some row := by
    rw [List.get?_drop]
    simpa [Nat.add_comm] using hrow
  obtain ⟨b, hb, hfb⟩ := helem i row hdrop
  rw [hsub] at hb
  exact (Option.some.inj hb) ▸ hfb

/-- The listing page of the C1 witness: three header rows then one data
row. -/
def c1Rows : List ListingRow := [[], [plainCell "h"], [], c5Row]

/-- C1 witness: on the concrete four-row page, exactly one submission is
extracted and it comes from the fourth row. -/
theorem c1_submissions_per_row_witness :
    scrapeSubmissionRows c1Rows = .ok [c5Sub] ∧
    [c5Sub].length = c1Rows.length - 3 := by
  have hok : scrapeSubmissionRows c1Rows = .ok [c5Sub] := by decide
  exact ⟨hok, (c1_submissions_per_row c1Rows [c5Sub] hok).2.1⟩

/-! ## C2: the aggregation primitive preserves input order -/

theorem promiseAllRun_length {α β : Type _} (f : α → β) (inputs : List α) :
    ∀ (order : List Nat) (acc : List (Option β)),
      (order.foldl (promiseAllStep f inputs) acc).length = acc.length := by
  intro order
  induction order with
  | nil => intro acc; rfl
  | cons j rest ih =>
    intro acc
    rw [List.foldl_cons, ih]
    simp [promiseAllStep]

theorem promiseAllRun_getElem {α β : Type _} (f : α → β) (inputs : List α) :
    ∀ (order : List Nat) (acc : List (Option β)) (i : Nat),
      (order.foldl (promiseAllStep f inputs) acc)[i]? =
        if i ∈ order ∧ i < acc.length then some ((inputs.get? i).map f)
        else acc[i]? := by
  intro order
  induction order with
  | nil =>
    intro acc i
    simp
  | cons j rest ih =>
    intro acc i
    have hstep : (promiseAllStep f inputs acc j).length = acc.length := by
      simp [promiseAllStep]
    rw [List.foldl_cons, ih, hstep]
    by_cases hmem : i ∈ rest
    · by_cases hlt : i < acc.length
      · rw [if_pos ⟨hmem, hlt⟩, if_pos ⟨List.mem_cons_of_mem j hmem, hlt⟩]
      · rw [if_neg (by tauto), if_neg (by tauto)]
        rw [List.getElem?_eq_none (by omega), List.getElem?_eq_none (by omega)]
    · rw [if_neg (by tauto)]
      unfold promiseAllStep
      by_cases hij : i = j
      · subst hij
        by_cases hlt : i < acc.length
        · rw [List.getElem?_set_self hlt, if_pos ⟨List.mem_cons_self i rest, hlt⟩]
        · rw [if_neg (by tauto), List.getElem?_set,
            if_pos rfl, if_neg hlt, List.getElem?_eq_none (by omega)]
      · rw [List.getElem?_set_ne (fun hh => hij hh.symm)]
        have hnot : ¬ i ∈ j :: rest := by
          simp only [List.mem_cons]
          rintro (rfl | hr)
          · exact hij rfl
          · exact hmem hr
        rw [if_neg (by tauto)]

/-- C2: for every fan-out (`Promise.all` over mapped operations), any
completion order that is a permutation of the slots yields the array whose
entry `i` is the result of the operation launched for `inputs[i]` —
output order matches input order regardless of completion order. -/
theorem c2_promise_all_order {α β : Type _} (f : α → β) (inputs : List α)
    (order : List Nat) (h : order.Perm (List.range inputs.length)) :
    promiseAll f inputs order = inputs.map fun a => some (f a) := by
  apply List.ext_getElem?
  intro i
  unfold promiseAll
  rw [promiseAllRun_getElem]
  by_cases hi : i < inputs.length
  · have hmem : i ∈ order := h.mem_iff.mpr (List.mem_range.mpr hi)
    rw [if_pos ⟨hmem, by simpa using hi⟩]
    rw [List.getElem?_map, List.getElem?_eq_getElem hi,
      List.get?_eq_getElem? inputs i, List.getElem?_eq_getElem hi]
    rfl
  · rw [if_neg (by simp only [List.length_replicate]; tauto)]
    rw [List.getElem?_eq_none (by simpa using Nat.le_of_not_lt hi), List.getElem?_map,
      List.getElem?_eq_none (by exact Nat.le_of_not_lt hi)]
    rfl

/-- C2 witness: a concrete fan-out of three operations completing in the
order 2, 0, 1 still fills the slots in input order. -/
theorem c2_promise_all_order_witness :
    promiseAll (fun n => n + 1) [10, 20, 30] [2, 0, 1] = [some 11, some 21, some 31] := by
  have h := c2_promise_all_order (fun n => n + 1) [10, 20, 30] [2, 0, 1] (by decide)
  simpa using h

/-! ## C6: pairing of review parts -/

/-- The elements at even positions (`filter((x, i) => i % 2 === 0)`). -/
def evens {α : Type _} : List α → List α
  | [] => []
  | [a] => [a]
  | a :: _ :: rest => a :: evens rest

theorem enumFrom_even_filter {α : Type _} :
    ∀ (t : List α) (k : Nat),
      ((List.enumFrom (2 * k) t).filter fun p => p.1 % 2 == 0).map Prod.snd =
        evens t := by
  intro t
  induction t using evens.induct with
  | case1 => intro k; simp [evens]
  | case2 a =>
    intro k
    simp [evens, List.enumFrom, Nat.mul_mod_right]
  | case3 a b rest ih =>
    intro k
    rw [List.enumFrom_cons, List.enumFrom_cons]
    rw [List.filter_cons_of_pos (by simp [Nat.mul_mod_right])]
    rw [List.filter_cons_of_neg (by simp [Nat.mul_add_mod])]
    rw [show 2 * k + 1 + 1 = 2 * (k + 1) from by ring]
    rw [List.map_cons, ih (k + 1)]
    rfl

theorem evens_eq_range (t : List String) :
    evens t = (List.range ((t.length + 1) / 2)).map fun i => (t.get? (2 * i)).getD "" := by
  induction t using evens.induct with
  | case1 => simp [evens]
  | case2 a => simp [evens, List.range_succ]
  | case3 a b rest ih =>
    show a :: evens rest = _
    rw [show (a :: b :: rest).length = rest.length + 2 from rfl]
    rw [show (rest.length + 2 + 1) / 2 = (rest.length + 1) / 2 + 1 from by omega]
    rw [List.range_succ_eq_map, List.map_cons, List.map_map]
    refine congrArg₂ List.cons rfl ?_
    rw [ih]
    apply List.map_congr_left
    intro i hi
    simp only [Function.comp_apply]
    rw [show 2 * Nat.succ i = 2 * i + 1 + 1 from by omega]
    rfl

theorem enumFrom_map_eq_range_map {α β : Type _} (d : α) (F : Nat × α → β) :
    ∀ (l : List α) (k : Nat),
      (List.enumFrom k l).map F =
        (List.range l.length).map fun i => F (k + i, (l.get? i).getD d) := by
  intro l
  induction l with
  | nil => intro k; simp
  | cons a t ih =>
    intro k
    rw [List.enumFrom_cons, List.map_cons, ih (k + 1)]
    rw [show (a :: t).length = t.length + 1 from rfl]
    rw [List.range_succ_eq_map, List.map_cons, List.map_map]
    refine congrArg₂ List.cons (by simp) ?_
    apply List.map_congr_left
    intro i hi
    simp only [Function.comp_apply]
    rw [show k + 1 + i = k + Nat.succ i from by omega]
    rfl

/-- The (title, content) pair built from rows `2i` and `2i + 1`: title is
`null` when the title row's text is empty, both are trimmed, a missing
content row gives `null`. -/
def mkReviewPart (rows : List String) (i : Nat) : ReviewPart :=
  { title := if (rows.get? (2 * i)).getD "" = "" then none
             else some (jsTrim ((rows.get? (2 * i)).getD "")),
    content := (rows.get? (2 * i + 1)).map jsTrim }

/-- The spec's reading of `reviewParts`: pair consecutive rows as
(title row, content row), trim, and discard any pair whose title is the
empty string (keeping pairs with a null title). -/
def reviewPartsSpec (rows : List String) : List ReviewPart :=
  ((List.range ((rows.length + 1) / 2)).map (mkReviewPart rows)).filter
    fun part => part.title ≠ some ""

theorem scrapeReviewParts_eq (rows : List String) :
    scrapeReviewParts rows = reviewPartsSpec rows := by
  unfold scrapeReviewParts reviewPartsSpec
  congr 1
  rw [show rows.enum = List.enumFrom (2 * 0) rows from rfl]
  rw [enumFrom_even_filter rows 0]
  rw [evens_eq_range rows]
  rw [show ((List.range ((rows.length + 1) / 2)).map
        fun i => (rows.get? (2 * i)).getD "").enum =
      List.enumFrom 0 ((List.range ((rows.length + 1) / 2)).map
        fun i => (rows.get? (2 * i)).getD "") from rfl]
  rw [enumFrom_map_eq_range_map ""]
  simp only [List.length_map, List.length_range]
  apply List.map_congr_left
  intro i hi
  have hg : ((List.range ((rows.length + 1) / 2)).map
      fun i => (rows.get? (2 * i)).getD "").get? i =
      some ((rows.get? (2 * i)).getD "") := by
    rw [List.get?_map, List.get?_eq_getElem? _ i,
      List.getElem?_range (List.mem_range.mp hi)]
    rfl
  rw [hg]
  simp only [Option.getD_some, Nat.zero_add, mkReviewPart]
  rw [show i * 2 + 1 = 2 * i + 1 from by ring]

/-- C6: `reviewParts` is exactly the (title, content) pairing of the third
table's rows with trimming and with empty-titled pairs discarded; an entry
with title exactly `""` never appears; a pair whose title row is empty
(null title) is kept. -/
theorem c6_review_parts (rows : List String) :
    scrapeReviewParts rows = reviewPartsSpec rows ∧
    (∀ part ∈ scrapeReviewParts rows, part.title ≠ some "") ∧
    (∀ i, 2 * i < rows.length → rows.get? (2 * i) = some "" →
      mkReviewPart rows i ∈ scrapeReviewParts rows ∧
      (mkReviewPart rows i).title = none) := by
  refine ⟨scrapeReviewParts_eq rows, ?_, ?_⟩
  · intro part hp
    rw [scrapeReviewParts_eq] at hp
    unfold reviewPartsSpec at hp
    have := List.of_mem_filter hp
    simpa using this
  · intro i h2i hrow
    have hrow2 : rows[2 * i]? = some "" := by
      rw [← List.get?_eq_getElem?]
      exact hrow
    have htitle : (mkReviewPart rows i).title = none := by
      simp [mkReviewPart, hrow2]
    refine ⟨?_, htitle⟩
    rw [scrapeReviewParts_eq]
    unfold reviewPartsSpec
    apply List.mem_filter.mpr
    refine ⟨List.mem_map_of_mem _ (List.mem_range.mpr (by omega)), ?_⟩
    simp [htitle]

/-! ## Evaluating `toNumber` on the fixture numerals

Rational normalization does not reduce inside the kernel, so the handful
of concrete values the fixtures need are computed through `norm_num`. -/

theorem decValue_int (ds : List Char) :
    decValue ds [] 0 = (digitsVal 10 decDigitVal ds : ℚ) := by
  simp [decValue, digitsVal]

theorem toNumber_one : toNumber "1" = .num 1 := by
  have h : toNumber "1" = .num (decValue ['1'] [] 0) := rfl
  rw [h, decValue_int, show digitsVal 10 decDigitVal ['1'] = 1 from by decide,
    show ((1 : Nat) : ℚ) = (1 : ℚ) from by norm_num]

theorem toNumber_nine : toNumber "9" = .num 9 := by
  have h : toNumber "9" = .num (decValue ['9'] [] 0) := rfl
  rw [h, decValue_int, show digitsVal 10 decDigitVal ['9'] = 9 from by decide,
    show ((9 : Nat) : ℚ) = (9 : ℚ) from by norm_num]

/-! ## C7: what a present scale means

The spec-side reading of a match of
`scale is (\d(?:\.\d)?)\.\.(\d(?:\.\d)?)`: the text literally contains
`scale is X..Y` with `X`, `Y` numerals of one digit optionally followed by
`.digit`, and the extracted bounds are the coercions of `X` and `Y` in
order of appearance. -/

/-- A captured scale numeral: `d` or `d.d`. -/
def IsScaleNumStr (l : List Char) : Prop :=
  (∃ a, l = [a] ∧ a.isDigit = true) ∨
  (∃ a b, l = [a, '.', b] ∧ a.isDigit = true ∧ b.isDigit = true)

/-- The text states a scale whose bounds coerce to `x` and `y`, in order. -/
def ScaleStated (t : String) (x y : JSNumber) : Prop :=
  ∃ pre sx sy rest,
    t.data = pre ++ "scale is ".data ++ (sx ++ '.' :: '.' :: (sy ++ rest)) ∧
    IsScaleNumStr sx ∧ IsScaleNumStr sy ∧
    x = toNumber (String.mk sx) ∧ y = toNumber (String.mk sy)

theorem parseScaleX_sound {t x r : List Char} (h : parseScaleX t = some (x, r)) :
    t = x ++ '.' :: '.' :: r ∧ IsScaleNumStr x := by
  unfold parseScaleX at h
  split at h
  · exact absurd h (by simp)
  · rename_i a rest
    split at h
    · rename_i ha
      split at h
      · rename_i b rest2
        split at h
        · rename_i hb
          have hinj := Option.some.inj h
          cases hinj
          exact ⟨by simp, Or.inr ⟨a, b, rfl, ha, hb⟩⟩
        · exact absurd h (by simp)
      · have hinj := Option.some.inj h
        cases hinj
        exact ⟨by simp, Or.inl ⟨a, rfl, ha⟩⟩
      · exact absurd h (by simp)
    · exact absurd h (by simp)

theorem parseScaleY_sound {t y : List Char} (h : parseScaleY t = some y) :
    ∃ r, t = y ++ r ∧ IsScaleNumStr y := by
  unfold parseScaleY at h
  split at h
  · rename_i a b rest
    split at h
    · rename_i ha
      by_cases hb : b.isDigit
      · obtain rfl : (if b.isDigit = true then [a, '.', b] else [a]) = y :=
          Option.some.inj h
        rw [if_pos hb]
        exact ⟨rest, by simp, Or.inr ⟨a, b, by simp [hb], ha, hb⟩⟩
      · obtain rfl : (if b.isDigit = true then [a, '.', b] else [a]) = y :=
          Option.some.inj h
        rw [if_neg hb]
        exact ⟨'.' :: b :: rest, by simp [hb], Or.inl ⟨a, by simp [hb], ha⟩⟩
    · exact absurd h (by simp)
  · rename_i a rest hnotabc
    split at h
    · rename_i ha
      obtain rfl : [a] = y := Option.some.inj h
      exact ⟨rest, rfl, Or.inl ⟨a, rfl, ha⟩⟩
    · exact absurd h (by simp)
  · exact absurd h (by simp)

theorem isPrefixOf_append {l1 l2 : List Char} (h : l1.isPrefixOf l2 = true) :
    ∃ t, l2 = l1 ++ t := by
  induction l1 generalizing l2 with
  | nil => exact ⟨l2, rfl⟩
  | cons a l ih =>
    match l2 with
    | [] => simp [List.isPrefixOf] at h
    | b :: l2x =>
      simp only [List.isPrefixOf, Bool.and_eq_true, beq_iff_eq] at h
      obtain ⟨rfl, h2⟩ := h
      obtain ⟨t, rfl⟩ := ih h2
      exact ⟨t, rfl⟩

theorem tryScaleAt_sound {s : List Char} {x y : List Char}
    (h : tryScaleAt s = some (x, y)) :
    ∃ rest, s = "scale is ".data ++ (x ++ '.' :: '.' :: (y ++ rest)) ∧
      IsScaleNumStr x ∧ IsScaleNumStr y := by
  unfold tryScaleAt at h
  split at h
  · rename_i hp
    obtain ⟨t, rfl⟩ := isPrefixOf_append hp
    have hdrop : ("scale is ".data ++ t).drop 9 = t := by
      have hlen : ("scale is ".data).length = 9 := rfl
      rw [← hlen, List.drop_left]
    rw [hdrop] at h
    rcases hx : parseScaleX t with _ | p <;> rw [hx] at h
    · exact absurd h (by simp)
    · obtain ⟨xx, rr⟩ := p
      dsimp only at h
      rcases hy : parseScaleY rr with _ | yy <;> rw [hy] at h
      · exact absurd h (by simp)
      · obtain ⟨rfl, rfl⟩ : xx = x ∧ yy = y := by
          have hinj := Option.some.inj h
          exact ⟨congrArg Prod.fst hinj, congrArg Prod.snd hinj⟩
        obtain ⟨hteq, hxnum⟩ := parseScaleX_sound hx
        obtain ⟨rest, hreq, hynum⟩ := parseScaleY_sound hy
        refine ⟨rest, ?_, hxnum, hynum⟩
        rw [hteq, hreq]
  · exact absurd h (by simp)

theorem execScale_sound {s x y : List Char} (h : execScale s = some (x, y)) :
    ∃ pre rest,
      s = pre ++ "scale is ".data ++ (x ++ '.' :: '.' :: (y ++ rest)) ∧
      IsScaleNumStr x ∧ IsScaleNumStr y := by
  induction s with
  | nil => simp [execScale] at h
  | cons c rest0 ih =>
    rw [execScale] at h
    rcases ht : tryScaleAt (c :: rest0) with _ | p <;> rw [ht] at h
    · obtain ⟨pre, rest2, hs, hx, hy⟩ := ih h
      exact ⟨c :: pre, rest2, by simp [hs], hx, hy⟩
    · obtain rfl : p = (x, y) := Option.some.inj h
      obtain ⟨r2, hs, hx, hy⟩ := tryScaleAt_sound ht
      exact ⟨[], r2, by simpa using hs, hx, hy⟩

/-- C7 amended: whenever a scale is present in an extracted review, its
two components are, in order of appearance, the coercions of the numerals
`X` and `Y` of a literal `scale is X..Y` occurrence in the corresponding
cell text (each a digit optionally followed by one decimal digit); hence
`scale[0] ≤ scale[1]` holds exactly when the page states bounds with
`X ≤ Y` — the code neither reorders nor validates them. -/
theorem c7_scale_bounds (isUser : Bool) (page : ReviewPage) (r : Review)
    (rtd2 rtd3 : InfoTd)
    (h : scrapeSubmissionReview isUser page = .ok r)
    (h2 : page.infoTds.get? 2 = some (some rtd2))
    (h3 : page.infoTds.get? 3 = some (some rtd3)) :
    (∀ x y, r.ratingScale = some (x, y) → ScaleStated rtd2.innerText x y) ∧
    (∀ x y, r.expertiseScale = some (x, y) → ScaleStated rtd3.innerText x y) := by
  obtain ⟨td0, td2x, td3x, b0, b2, b3, g0, g2, g3, hb0, hb2, hb3, rfl⟩ :=
    scrapeSubmissionReview_ok h
  have e2 : rtd2 = td2x := by
    rw [h2] at g2
    exact Option.some.inj (Option.some.inj g2)
  have e3 : rtd3 = td3x := by
    rw [h3] at g3
    exact Option.some.inj (Option.some.inj g3)
  subst e2
  subst e3
  constructor <;> intro x y hxy
  · dsimp only at hxy
    rcases hexec : execScale rtd2.innerText.data with _ | p <;> rw [hexec] at hxy
    · exact absurd hxy (by simp)
    · obtain ⟨sx, sy⟩ := p
      have hinj := Option.some.inj hxy
      obtain ⟨pre, rest, hs, hsx, hsy⟩ := execScale_sound hexec
      exact ⟨pre, sx, sy, rest, hs, hsx, hsy,
        (congrArg Prod.fst hinj).symm, (congrArg Prod.snd hinj).symm⟩
  · dsimp only at hxy
    rcases hexec : execScale rtd3.innerText.data with _ | p <;> rw [hexec] at hxy
    · exact absurd hxy (by simp)
    · obtain ⟨sx, sy⟩ := p
      have hinj := Option.some.inj hxy
      obtain ⟨pre, rest, hs, hsx, hsy⟩ := execScale_sound hexec
      exact ⟨pre, sx, sy, rest, hs, hsx, hsy,
        (congrArg Prod.fst hinj).symm, (congrArg Prod.snd hinj).symm⟩

/-- A review page whose rating cell states the descending scale `9..1`. -/
def c7Page : ReviewPage :=
  { infoTds := [some { innerText := "Reviewer 1 (AC)", bold := some "1" },
                some { innerText := "", bold := none },
                some { innerText := "The scale is 9..1", bold := some "9" },
                some { innerText := "The scale is 1..5", bold := some "3" }],
    reviewTrs := [] }

/-- Projection used by closed statements: the `ratingScale` of a
successful extraction. -/
def ratingScaleOf : Except Unit Review → Option (JSNumber × JSNumber)
  | .ok r => r.ratingScale
  | .error _ => none

/-- C7 counterexample: a page whose rating cell reads
`"The scale is 9..1"` extracts `ratingScale = (9, 1)`, and `9 ≤ 1` does
not hold — the claimed invariant `scale[0] ≤ scale[1]` fails on the code. -/
theorem c7_scale_counterexample :
    ratingScaleOf (scrapeSubmissionReview true c7Page) =
      some (toNumber "9", toNumber "1") ∧
    toNumber "9" = .num 9 ∧ toNumber "1" = .num 1 ∧
    JSNumber.leb (.num 9) (.num 1) = false := by
  exact ⟨rfl, toNumber_nine, toNumber_one, by decide⟩

/-- C7 witness: applying the amended theorem at the concrete page shows
the text states the bounds `9` and `1` in that order. -/
theorem c7_scale_bounds_witness :
    ScaleStated "The scale is 9..1" (toNumber "9") (toNumber "1") := by
  have hok : scrapeSubmissionReview true c7Page = .ok {
      isUser := true, number := toNumber "1", rating := toNumber "9",
      ratingScale := (execScale "The scale is 9..1".data).map fun p =>
        (toNumber (String.mk p.1), toNumber (String.mk p.2)),
      reviewerExpertise := toNumber "3",
      expertiseScale := (execScale "The scale is 1..5".data).map fun p =>
        (toNumber (String.mk p.1), toNumber (String.mk p.2)),
      reviewerType := match execParen "Reviewer 1 (AC)".data with
        | some g => String.mk g
        | none => "external",
      reviewParts := scrapeReviewParts [] } := rfl
  exact (c7_scale_bounds true c7Page _
    { innerText := "The scale is 9..1", bold := some "9" }
    { innerText := "The scale is 1..5", bold := some "3" }
    hok rfl rfl).1 (toNumber "9") (toNumber "1") rfl

/-! ## C8: review numbers within a submission -/

/-- What the scraper reads as a review's `number`: the coercion of the
bolded text of the first info row's second cell. -/
def extractReviewNumber (page : ReviewPage) : Except Unit JSNumber :=
  match page.infoTds.get? 0 with
  | some (some td) =>
    match td.bold with
    | some b => .ok (toNumber b)
    | none => .error ()
  | _ => .error ()

theorem extractReviewNumber_of_ok {isUser : Bool} {page : ReviewPage} {r : Review}
    (h : scrapeSubmissionReview isUser page = .ok r) :
    extractReviewNumber page = .ok r.number := by
  obtain ⟨td0, td2, td3, b0, b2, b3, g0, g2, g3, hb0, hb2, hb3, rfl⟩ :=
    scrapeSubmissionReview_ok h
  unfold extractReviewNumber
  rw [g0]
  dsimp only
  rw [hb0]

/-- C8 amended: each extracted review's `number` is exactly the number
scraped from its own page, in input order — so the numbers are pairwise
distinct exactly when the pages supply pairwise distinct numbers; the
code performs no uniqueness check. -/
theorem c8_review_numbers (reviewPages : String → ReviewPage)
    (anchors : List Anchor) (revs : List Review)
    (h : scrapeSubmissionReviews reviewPages anchors = .ok revs) :
    (scrapeReviewLinks anchors).mapM
      (fun l => extractReviewNumber (reviewPages l.address)) =
      .ok (revs.map Review.number) := by
  unfold scrapeSubmissionReviews at h
  generalize hL : scrapeReviewLinks anchors = links at h ⊢
  clear hL
  induction links generalizing revs with
  | nil =>
    cases h
    rfl
  | cons l ls ih =>
    rw [List.mapM_cons] at h ⊢
    rcases hf : scrapeSubmissionReview l.isUser (reviewPages l.address) with e | r <;>
      rw [hf] at h
    · exact Except.noConfusion h
    · rcases hm : ls.mapM
          (fun l => scrapeSubmissionReview l.isUser (reviewPages l.address)) with e | rs <;>
        rw [hm] at h
      · exact Except.noConfusion h
      · cases h
        rw [extractReviewNumber_of_ok hf, ih rs hm]
        rfl

/-- A review page whose number cell reads `1`. -/
def c8Page : ReviewPage :=
  { infoTds := [some { innerText := "Reviewer 1", bold := some "1" },
                some { innerText := "", bold := none },
                some { innerText := "", bold := some "3" },
                some { innerText := "", bold := some "4" }],
    reviewTrs := [] }

/-- Two review links of one submission, both resolving to pages that state
the same review number. -/
def c8Anchors : List Anchor :=
  [{ title := "", href := "/rev/1", innerText := "Review 1 (you)" },
   { title := "", href := "/rev/1b", innerText := "Review 1" }]

/-- The two reviews those anchors extract to. -/
def c8Revs : List Review :=
  [{ isUser := true, number := toNumber "1", rating := toNumber "3",
     ratingScale := none, reviewerExpertise := toNumber "4",
     expertiseScale := none, reviewerType := "external", reviewParts := [] },
   { isUser := false, number := toNumber "1", rating := toNumber "3",
     ratingScale := none, reviewerExpertise := toNumber "4",
     expertiseScale := none, reviewerType := "external", reviewParts := [] }]

/-- Projection used by closed statements: the review numbers of a
successful extraction. -/
def reviewNumbersOf : Except Unit (List Review) → List JSNumber
  | .ok rs => rs.map Review.number
  | .error _ => []

/-- C8 counterexample: a submission whose two review pages both state
number `1` yields `number` fields `[1, 1]`, which are not pairwise
distinct — uniqueness of review numbers fails on the code. -/
theorem c8_counterexample :
    reviewNumbersOf (scrapeSubmissionReviews (fun _ => c8Page) c8Anchors) =
      [toNumber "1", toNumber "1"] ∧
    toNumber "1" = .num 1 ∧
    ¬ List.Pairwise (fun a b => a ≠ b) [JSNumber.num 1, JSNumber.num 1] := by
  exact ⟨rfl, toNumber_one, by simp⟩

/-- C8 witness: the amended theorem applied at the concrete submission. -/
theorem c8_review_numbers_witness :
    (scrapeReviewLinks c8Anchors).mapM
      (fun l => extractReviewNumber ((fun _ => c8Page) l.address)) =
      .ok (c8Revs.map Review.number) := by
  exact c8_review_numbers (fun _ => c8Page) c8Anchors c8Revs rfl

/-! ## C10: numeric coercion and NaN

An independent reading of the ECMAScript `StringNumericLiteral` grammar,
stated structurally on the character list; `toNumber` yields `NaN` on
every non-empty trimmed string outside the grammar. -/

/-- One or more decimal digits. -/
def IsDigitRun (l : List Char) : Prop := l ≠ [] ∧ ∀ c ∈ l, c.isDigit = true

/-- An optional exponent part: empty, or `e`/`E`, an optional sign and at
least one digit. -/
def IsExponentPartStr (l : List Char) : Prop :=
  l = [] ∨ ∃ e sgn d, l = e :: (sgn ++ d) ∧ (e = 'e' ∨ e = 'E') ∧
    (sgn = [] ∨ sgn = ['+'] ∨ sgn = ['-']) ∧ IsDigitRun d

/-- `StrUnsignedDecimalLiteral`: `Infinity`, digits around a decimal point
(at least one digit on some side) with an optional exponent, or a digit
run with an optional exponent. -/
def IsUnsignedDecStr (l : List Char) : Prop :=
  l = "Infinity".data ∨
  (∃ a b ex, l = a ++ '.' :: (b ++ ex) ∧ (∀ c ∈ a, c.isDigit = true) ∧
    (∀ c ∈ b, c.isDigit = true) ∧ (a ≠ [] ∨ b ≠ []) ∧ IsExponentPartStr ex) ∨
  (∃ a ex, l = a ++ ex ∧ IsDigitRun a ∧ IsExponentPartStr ex)

/-- `StrDecimalLiteral`: an optional sign then an unsigned literal. -/
def IsStrDecimalStr (l : List Char) : Prop :=
  ∃ sgn u, l = sgn ++ u ∧ (sgn = [] ∨ sgn = ['+'] ∨ sgn = ['-']) ∧
    IsUnsignedDecStr u

/-- A `0x`/`0o`/`0b` integer literal (no sign allowed). -/
def IsNonDecIntStr (l : List Char) : Prop :=
  ∃ p d, l = '0' :: p :: d ∧ d ≠ [] ∧
    (((p = 'x' ∨ p = 'X') ∧ ∀ c ∈ d, isHexDigitChar c = true) ∨
     ((p = 'o' ∨ p = 'O') ∧ ∀ c ∈ d, isOctDigitChar c = true) ∨
     ((p = 'b' ∨ p = 'B') ∧ ∀ c ∈ d, isBinDigitChar c = true))

/-- `StrNumericLiteral`. -/
def IsStrNumericStr (l : List Char) : Prop :=
  IsStrDecimalStr l ∨ IsNonDecIntStr l

/-- The trimmed text is a JavaScript numeral (or empty, which coerces
to 0). -/
def IsJSNumeralString (s : String) : Prop :=
  jsTrimList s.data = [] ∨ IsStrNumericStr (jsTrimList s.data)

theorem takeDigits_eq (l : List Char) :
    l = (takeDigits l).1 ++ (takeDigits l).2 ∧
    ∀ c ∈ (takeDigits l).1, c.isDigit = true := by
  induction l with
  | nil => simp [takeDigits]
  | cons c rest ih =>
    by_cases hc : c.isDigit
    · simp only [takeDigits, if_pos hc]
      refine ⟨?_, ?_⟩
      · rw [List.cons_append]
        exact congrArg (c :: ·) ih.1
      · intro d hd
        rcases List.mem_cons.mp hd with rfl | hmem
        · exact hc
        · exact ih.2 d hmem
    · simp [takeDigits, hc]

theorem parseExponent_sound {l : List Char} {ex : Int}
    (h : parseExponent l = some ex) : IsExponentPartStr l := by
  unfold parseExponent at h
  split at h
  · exact Or.inl rfl
  · rename_i c rest
    split at h
    · rename_i hc
      split at h
      · rename_i d
        split at h
        · rename_i hd
          have hd2 : d ≠ [] ∧ ∀ x ∈ d, x.isDigit = true := by simpa using hd
          exact Or.inr ⟨c, ['+'], d, rfl, by simpa using hc, by simp, hd2⟩
        · exact absurd h (by simp)
      · rename_i d
        split at h
        · rename_i hd
          have hd2 : d ≠ [] ∧ ∀ x ∈ d, x.isDigit = true := by simpa using hd
          exact Or.inr ⟨c, ['-'], d, rfl, by simpa using hc, by simp, hd2⟩
        · exact absurd h (by simp)
      · split at h
        · rename_i hd
          have hd2 : rest ≠ [] ∧ ∀ x ∈ rest, x.isDigit = true := by simpa using hd
          exact Or.inr ⟨c, [], rest, rfl, by simpa using hc, by simp, hd2⟩
        · exact absurd h (by simp)
    · exact absurd h (by simp)

theorem parseUnsignedDec_sound {l : List Char} {v : JSNumber}
    (h : parseUnsignedDec l = some v) : IsUnsignedDecStr l := by
  unfold parseUnsignedDec at h
  split at h
  · exact Or.inl (by assumption)
  · obtain ⟨hsplit, hdig⟩ := takeDigits_eq l
    split at h
    · rename_i r2 heq
      split at h
      · exact absurd h (by simp)
      · rename_i hcond
        rcases hex : parseExponent (takeDigits r2).2 with _ | ex2 <;> rw [hex] at h
        · exact absurd h (by simp)
        · obtain ⟨hsplit2, hdig2⟩ := takeDigits_eq r2
          refine Or.inr (Or.inl ⟨(takeDigits l).1, (takeDigits r2).1,
            (takeDigits r2).2, ?_, hdig, hdig2, ?_, parseExponent_sound hex⟩)
          · calc l = (takeDigits l).1 ++ (takeDigits l).2 := hsplit
              _ = (takeDigits l).1 ++ ('.' :: r2) := by rw [heq]
              _ = (takeDigits l).1 ++
                  ('.' :: ((takeDigits r2).1 ++ (takeDigits r2).2)) := by
                    rw [← hsplit2]
          · have himp : (takeDigits l).1 = [] → ¬(takeDigits r2).1 = [] := by
              simpa using hcond
            by_cases hA : (takeDigits l).1 = []
            · exact Or.inr (himp hA)
            · exact Or.inl hA
    · rename_i hnotdot
      split at h
      · exact absurd h (by simp)
      · rename_i hne
        rcases hex : parseExponent (takeDigits l).2 with _ | ex2 <;> rw [hex] at h
        · exact absurd h (by simp)
        · exact Or.inr (Or.inr ⟨(takeDigits l).1, (takeDigits l).2, hsplit,
            ⟨hne, hdig⟩, parseExponent_sound hex⟩)

theorem parseRadix_sound {pred : Char → Bool} {dval : Char → Nat} {base : Nat}
    {l : List Char} {v : JSNumber} (h : parseRadix pred dval base l = some v) :
    l ≠ [] ∧ ∀ c ∈ l, pred c = true := by
  unfold parseRadix at h
  split at h
  · rename_i hcond
    simpa using hcond
  · exact absurd h (by simp)

theorem parseStrDecimal_sound {l : List Char} {v : JSNumber}
    (h : parseStrDecimal l = some v) : IsStrDecimalStr l := by
  unfold parseStrDecimal at h
  split at h
  · rename_i r
    exact ⟨['+'], r, rfl, by simp, parseUnsignedDec_sound h⟩
  · rename_i r
    rcases hu : parseUnsignedDec r with _ | u <;> rw [hu] at h
    · exact absurd h (by simp)
    · exact ⟨['-'], r, rfl, by simp, parseUnsignedDec_sound hu⟩
  · exact ⟨[], l, rfl, by simp, parseUnsignedDec_sound h⟩

theorem parseStrNumeric_sound {l : List Char} {v : JSNumber}
    (h : parseStrNumeric l = some v) : IsStrNumericStr l := by
  unfold parseStrNumeric at h
  split at h
  · rename_i c r
    split at h
    · rename_i hc
      obtain ⟨hne, hall⟩ := parseRadix_sound h
      exact Or.inr ⟨c, r, rfl, hne, Or.inl ⟨by simpa using hc, hall⟩⟩
    · split at h
      · rename_i hc
        obtain ⟨hne, hall⟩ := parseRadix_sound h
        exact Or.inr ⟨c, r, rfl, hne, Or.inr (Or.inl ⟨by simpa using hc, hall⟩)⟩
      · split at h
        · rename_i hc
          obtain ⟨hne, hall⟩ := parseRadix_sound h
          exact Or.inr ⟨c, r, rfl, hne, Or.inr (Or.inr ⟨by simpa using hc, hall⟩)⟩
        · exact Or.inl (parseStrDecimal_sound h)
  · exact Or.inl (parseStrDecimal_sound h)

/-- On any string that is not (after trimming) empty or a numeric literal,
the unary-plus coercion yields NaN. -/
theorem toNumber_nan_of_not_numeral {s : String} (h : ¬ IsJSNumeralString s) :
    toNumber s = .nan := by
  simp only [toNumber]
  by_cases h0 : jsTrimList s.data = []
  · exact absurd (Or.inl h0) h
  · rw [if_neg h0]
    rcases hp : parseStrNumeric (jsTrimList s.data) with _ | v
    · rfl
    · exact absurd (Or.inr (parseStrNumeric_sound hp)) h

/-- C10: for every review page whose three info rows and bolded cells are
present, extraction succeeds (no error is raised whatever the cell text),
and `number`, `rating` and `reviewerExpertise` are the unary-plus
coercions of the bolded texts; any bolded text that is not a valid
numeral makes the corresponding field NaN. -/
theorem c10_numeric_coercion (isUser : Bool) (page : ReviewPage)
    (rtd0 rtd2 rtd3 : InfoTd) (b0 b2 b3 : String)
    (h0 : page.infoTds.get? 0 = some (some rtd0))
    (h2 : page.infoTds.get? 2 = some (some rtd2))
    (h3 : page.infoTds.get? 3 = some (some rtd3))
    (hb0 : rtd0.bold = some b0) (hb2 : rtd2.bold = some b2)
    (hb3 : rtd3.bold = some b3) :
    (∃ r, scrapeSubmissionReview isUser page = .ok r ∧
      r.number = toNumber b0 ∧ r.rating = toNumber b2 ∧
      r.reviewerExpertise = toNumber b3) ∧
    (∀ s : String, ¬ IsJSNumeralString s → toNumber s = .nan) := by
  refine ⟨?_, fun s hs => toNumber_nan_of_not_numeral hs⟩
  have hscrape : scrapeSubmissionReview isUser page = .ok {
      isUser := isUser, number := toNumber b0, rating := toNumber b2,
      ratingScale := (execScale rtd2.innerText.data).map fun p =>
        (toNumber (String.mk p.1), toNumber (String.mk p.2)),
      reviewerExpertise := toNumber b3,
      expertiseScale := (execScale rtd3.innerText.data).map fun p =>
        (toNumber (String.mk p.1), toNumber (String.mk p.2)),
      reviewerType := match execParen rtd0.innerText.data with
        | some g => String.mk g
        | none => "external",
      reviewParts := scrapeReviewParts page.reviewTrs } := by
    unfold scrapeSubmissionReview
    rw [h0, h2, h3]
    dsimp only
    rw [hb0, hb2, hb3]
  exact ⟨_, hscrape, rfl, rfl, rfl⟩

/-- A review page whose number cell is not numeric. -/
def c10Page : ReviewPage :=
  { infoTds := [some { innerText := "Reviewer 1", bold := some "n/a" },
                some { innerText := "", bold := none },
                some { innerText := "", bold := some "3" },
                some { innerText := "", bold := some "4" }],
    reviewTrs := [] }

/-- Projection used by closed statements: the `number` of a successful
extraction. -/
def reviewNumberOf : Except Unit Review → Option JSNumber
  | .ok r => some r.number
  | .error _ => none

/-- C10 witness: bold text `"n/a"` still extracts successfully and the
`number` field is NaN. -/
theorem c10_numeric_coercion_witness :
    reviewNumberOf (scrapeSubmissionReview false c10Page) = some JSNumber.nan := by
  obtain ⟨r, hok, hn, _, _⟩ := (c10_numeric_coercion false c10Page
    { innerText := "Reviewer 1", bold := some "n/a" }
    { innerText := "", bold := some "3" }
    { innerText := "", bold := some "4" }
    "n/a" "3" "4" rfl rfl rfl rfl rfl rfl).1
  rw [hok]
  have hnan : toNumber "n/a" = .nan := by decide
  rw [show reviewNumberOf (Except.ok r) = some r.number from rfl, hn, hnan]

end PcsScrapper
